import Mathlib

/-!
Shallow embedding of `src/app.py` (protein molecular-weight calculator and
Ni-NTA buffer designer).  Python floats are modelled as exact rationals `ℚ`;
Python's `round(x, n)` (round-half-to-even) is modelled by `pyRound`;
raising code is modelled with `Option`/`Except`.  Strings are modelled as
`List Char`.
-/

/-- Python's `round` to an integer: round half to even (banker's rounding),
on exact rationals. -/
def roundHalfEven (q : ℚ) : ℤ :=
  let f : ℤ := ⌊q⌋
  if q - f < 1 / 2 then f
  else if 1 / 2 < q - f then f + 1
  else if f % 2 = 0 then f else f + 1

/-- Python's `round(x, n)` on exact rationals. -/
def pyRound (q : ℚ) (n : ℕ) : ℚ :=
  (roundHalfEven (q * 10 ^ n) : ℚ) / 10 ^ n

/-! ### Sequence analyzer (`app.py` lines 11–43) -/

/-- The dictionary `AA_RESIDUE_MW` of `app.py`: average residue masses (Da),
in source order. -/
def AA_RESIDUE_MW : List (Char × ℚ) :=
  [('A', 71.08), ('R', 156.19), ('N', 114.10), ('D', 115.09),
   ('C', 103.15), ('E', 129.12), ('Q', 128.13), ('G', 57.05),
   ('H', 137.14), ('I', 113.16), ('L', 113.16), ('K', 128.17),
   ('M', 131.19), ('F', 147.18), ('P', 97.12), ('S', 87.08),
   ('T', 101.11), ('W', 186.21), ('Y', 163.18), ('V', 99.13)]

/-- `WATER = 18.015` of `app.py`. -/
def WATER : ℚ := 18.015

/-- Characters stripped by Python's `str.strip()` (the ASCII whitespace
set; the sequences of interest contain no other Unicode whitespace). -/
def isPySpace (c : Char) : Bool :=
  c = ' ' || c = '\t' || c = '\n' || c = '\r' || c = '\x0b' || c = '\x0c'

/-- Python's `str.strip()`: drop leading and trailing whitespace. -/
def pyStrip (l : List Char) : List Char :=
  ((l.dropWhile isPySpace).reverse.dropWhile isPySpace).reverse

/-- The line-boundary characters of Python's `str.splitlines()`. -/
def isLineBreak (c : Char) : Bool :=
  c = '\n' || c = '\r' || c = '\x0b' || c = '\x0c' || c = '\x1c' ||
    c = '\x1d' || c = '\x1e' || c = '\x85' || c = '\u2028' || c = '\u2029'

/-- Core of `str.splitlines()`: split at line boundaries, treating the pair
CR LF as a single boundary, with a (possibly empty) final line always
produced.  A CR directly followed by LF contributes nothing of its own,
because the LF after it has already opened the new line; any other
line-boundary character opens a new line. -/
def splitLinesCore : List Char → List (List Char)
  | [] => [[]]
  | c :: rest =>
    let ls := splitLinesCore rest
    if c = '\r' && rest.head? = some '\n' then ls
    else if isLineBreak c then [] :: ls
    else
      match ls with
      | [] => [[c]]
      | line :: ls2 => (c :: line) :: ls2

/-- Python's `str.splitlines()`: as `splitLinesCore`, except that a trailing
line terminator produces no trailing empty line (and `""` gives `[]`). -/
def pySplitlines (l : List Char) : List (List Char) :=
  let ls := splitLinesCore l
  if ls.getLast? = some [] then ls.dropLast else ls

/-- `line.startswith(">")` of `app.py` line 27. -/
def startsWithGt (line : List Char) : Bool :=
  line.head? = some '>'

/-- An ASCII capital letter (what the regex character class A–Z keeps). -/
def isAZ (c : Char) : Bool :=
  'A' ≤ c && c ≤ 'Z'

/-- `clean_sequence` of `app.py` lines 24–29: strip and uppercase, drop the
FASTA header lines (those starting with a greater-than sign), re-join with
newlines, then delete every character outside A–Z. -/
def clean_sequence (l : List Char) : List Char :=
  let s := (pyStrip l).map Char.toUpper
  let joined := List.intercalate ['\n']
    ((pySplitlines s).filter (fun line => !startsWithGt line))
  joined.filter isAZ

/-- The summed residue masses of a sequence (each character looked up in
`AA_RESIDUE_MW`; on the validated path every lookup succeeds). -/
def sum_residue_mass (seq : List Char) : ℚ :=
  (seq.map (fun c => ((AA_RESIDUE_MW.lookup c).getD 0))).sum

/-- `calc_mw_da` of `app.py` lines 31–38.  The empty sequence gives `0.0`;
a character outside the table raises `ValueError` citing that character
(modelled as `Except.error` carrying the first such character); otherwise
the summed residue masses plus `WATER`, rounded to 2 decimal places. -/
def calc_mw_da (seq : List Char) : Except Char ℚ :=
  if seq.isEmpty then Except.ok 0
  else
    match seq.find? (fun c => (AA_RESIDUE_MW.lookup c).isNone) with
    | some c => Except.error c
    | none => Except.ok (pyRound (sum_residue_mass seq + WATER) 2)

/-- Length of the run of leading capital-H characters. -/
def countH : List Char → ℕ
  | [] => 0
  | c :: rest => if c = 'H' then countH rest + 1 else 0

/-- `find_his_tag` of `app.py` lines 40–43:
`re.finditer(r"H{6,}", seq)` yields the maximal runs of H of length at
least 6, leftmost first, greedily and without overlap, as half-open
0-indexed `(start, end)` spans.  Modelled operationally: at a run of
leading H of length `n`, emit `(0, n)` when `6 ≤ n`, skip the whole run,
and shift the spans found in the remainder. -/
def find_his_tag : List Char → List (ℕ × ℕ)
  | [] => []
  | c :: rest =>
    if c = 'H' then
      (if 6 ≤ countH rest + 1 then [(0, countH rest + 1)] else []) ++
        (find_his_tag (rest.drop (countH rest))).map
          (fun p => (p.1 + (countH rest + 1), p.2 + (countH rest + 1)))
    else
      (find_his_tag rest).map (fun p => (p.1 + 1, p.2 + 1))
termination_by l => l.length
decreasing_by
  · simp only [List.length_cons, List.length_drop]
    omega
  · simp

/-! ### Buffer designer (`app.py` lines 48–139) -/

/-- The dilution formula of `ml_from_stock` (`app.py` line 50):
`C1 V1 = C2 V2`, i.e. `final_conc * final_vol / stock_conc`. -/
def ml_from_stock_val (final_vol_ml final_conc stock_conc : ℚ) : ℚ :=
  final_conc * final_vol_ml / stock_conc

/-- `ml_from_stock` of `app.py` lines 48–50.  Python's division raises
`ZeroDivisionError` exactly when `stock_conc = 0`, modelled as `none`;
otherwise the dilution-law volume is returned. -/
def ml_from_stock (final_vol_ml final_conc stock_conc : ℚ) : Option ℚ :=
  if stock_conc = 0 then none
  else some (ml_from_stock_val final_vol_ml final_conc stock_conc)

/-- `pct_from_stock` of `app.py` lines 52–54. -/
def pct_from_stock (final_vol_ml final_pct stock_pct : ℚ) : ℚ :=
  final_pct / stock_pct * final_vol_ml

/-- One row of a buffer table: `[Component, Stock, Target (final),
Volume (mL)]`. -/
structure BufferRow where
  component : String
  stock : String
  target : String
  volume : ℚ
deriving DecidableEq, Repr

/-- `make_buffer_table` of `app.py` lines 56–59: round every volume of the
table to 4 decimal places (`df["Volume (mL)"].map(lambda x: round(x, 4))`). -/
def make_buffer_table (components : List BufferRow) : List BufferRow :=
  components.map (fun r => ⟨r.component, r.stock, r.target, pyRound r.volume 4⟩)

/-- The keyword arguments of `design_buffers` (`app.py` lines 61–65). -/
structure DesignParams where
  lysis_vol_ml : ℚ
  wash_vol_ml : ℚ
  elution_vol_ml : ℚ
  use_tris_ph : ℚ
  add_dtt : Bool
  dtt_mM : ℚ
  add_bme : Bool
  bme_mM : ℚ
  lysis_imid_mM : ℚ

/-- The Tris stock description chosen at `app.py` line 81. -/
def trisStockName (ph : ℚ) : String :=
  if ph = 8 then ("1 M Tris-HCl (pH 8.0)") else ("1 M Tris-HCl (pH 8.5)")

/-- `v_tris` of `app.py` line 86 (`tris_stock_conc_mM = 1000.0`). -/
def lysis_v_tris (p : DesignParams) : ℚ := ml_from_stock_val p.lysis_vol_ml 50 1000

/-- `v_nacl` of `app.py` line 87. -/
def lysis_v_nacl (p : DesignParams) : ℚ := ml_from_stock_val p.lysis_vol_ml 300 5000

/-- `v_tx` of `app.py` line 88. -/
def lysis_v_tx (p : DesignParams) : ℚ := pct_from_stock p.lysis_vol_ml 1 10

/-- `v_pi` of `app.py` line 89. -/
def lysis_v_pi (p : DesignParams) : ℚ := p.lysis_vol_ml * (1 / 100)

/-- `v_imid` of `app.py` line 90: the conditional expression
`ml_from_stock(...) if lysis_imid_mM > 0 else 0.0`. -/
def lysis_v_imid (p : DesignParams) : ℚ :=
  if 0 < p.lysis_imid_mM then ml_from_stock_val p.lysis_vol_ml p.lysis_imid_mM 1000
  else 0

/-- `v_dtt` of `app.py` lines 99–101: `0.0` unless `add_dtt and dtt_mM > 0`. -/
def lysis_v_dtt (p : DesignParams) : ℚ :=
  if p.add_dtt ∧ 0 < p.dtt_mM then ml_from_stock_val p.lysis_vol_ml p.dtt_mM 1000
  else 0

/-- `v_bme` of `app.py` lines 104–107: `0.0` unless `add_bme and bme_mM > 0`
(14.3 M stock = 14300 mM). -/
def lysis_v_bme (p : DesignParams) : ℚ :=
  if p.add_bme ∧ 0 < p.bme_mM then ml_from_stock_val p.lysis_vol_ml p.bme_mM 14300
  else 0

/-- `used_lysis` of `app.py` line 110. -/
def used_lysis (p : DesignParams) : ℚ :=
  lysis_v_tris p + lysis_v_nacl p + lysis_v_tx p + lysis_v_pi p +
    lysis_v_imid p + lysis_v_dtt p + lysis_v_bme p

/-- The `lysis` component list built at `app.py` lines 85–111, before the
display rounding of `make_buffer_table`.  (The multiplication-sign and
beta characters of the source's strings are transliterated to ASCII.) -/
def lysis_components (p : DesignParams) : List BufferRow :=
  [⟨"Tris-HCl (buffer base)", trisStockName p.use_tris_ph, "50 mM", lysis_v_tris p⟩,
   ⟨"NaCl", "5 M NaCl", "300 mM", lysis_v_nacl p⟩,
   ⟨"Triton X-100", "10% Triton X-100", "1% (v/v)", lysis_v_tx p⟩,
   ⟨"Protease inhibitor", "100x PI", "1x", lysis_v_pi p⟩] ++
  (if 0 < p.lysis_imid_mM then
    [⟨"Imidazole (optional)", "1 M Imidazole",
      toString p.lysis_imid_mM ++ " mM", lysis_v_imid p⟩]
   else []) ++
  (if p.add_dtt ∧ 0 < p.dtt_mM then
    [⟨"DTT (optional)", "1 M DTT", toString p.dtt_mM ++ " mM", lysis_v_dtt p⟩]
   else []) ++
  (if p.add_bme ∧ 0 < p.bme_mM then
    [⟨"beta-mercaptoethanol (optional)", "14.3 M beta-ME",
      toString p.bme_mM ++ " mM", lysis_v_bme p⟩]
   else []) ++
  [⟨"DW", "-", "to volume", max 0 (p.lysis_vol_ml - used_lysis p)⟩]

/-- `v_tris_w` of `app.py` line 115. -/
def wash_v_tris (p : DesignParams) : ℚ := ml_from_stock_val p.wash_vol_ml 50 1000

/-- `v_nacl_w` of `app.py` line 116. -/
def wash_v_nacl (p : DesignParams) : ℚ := ml_from_stock_val p.wash_vol_ml 300 5000

/-- `v_imid_w` of `app.py` line 117. -/
def wash_v_imid (p : DesignParams) : ℚ := ml_from_stock_val p.wash_vol_ml 20 1000

/-- `used_wash` of `app.py` line 123. -/
def used_wash (p : DesignParams) : ℚ :=
  wash_v_tris p + wash_v_nacl p + wash_v_imid p

/-- The `wash` component list built at `app.py` lines 114–124. -/
def wash_components (p : DesignParams) : List BufferRow :=
  [⟨"Tris-HCl (buffer base)", trisStockName p.use_tris_ph, "50 mM", wash_v_tris p⟩,
   ⟨"NaCl", "5 M NaCl", "300 mM", wash_v_nacl p⟩,
   ⟨"Imidazole", "1 M Imidazole", "20 mM", wash_v_imid p⟩,
   ⟨"DW", "-", "to volume", max 0 (p.wash_vol_ml - used_wash p)⟩]

/-- `v_tris_e` of `app.py` line 128. -/
def elution_v_tris (p : DesignParams) : ℚ := ml_from_stock_val p.elution_vol_ml 50 1000

/-- `v_nacl_e` of `app.py` line 129. -/
def elution_v_nacl (p : DesignParams) : ℚ := ml_from_stock_val p.elution_vol_ml 300 5000

/-- `v_imid_e` of `app.py` line 130. -/
def elution_v_imid (p : DesignParams) : ℚ := ml_from_stock_val p.elution_vol_ml 250 1000

/-- `used_elution` of `app.py` line 136. -/
def used_elution (p : DesignParams) : ℚ :=
  elution_v_tris p + elution_v_nacl p + elution_v_imid p

/-- The `elution` component list built at `app.py` lines 127–137. -/
def elution_components (p : DesignParams) : List BufferRow :=
  [⟨"Tris-HCl (buffer base)", trisStockName p.use_tris_ph, "50 mM", elution_v_tris p⟩,
   ⟨"NaCl", "5 M NaCl", "300 mM", elution_v_nacl p⟩,
   ⟨"Imidazole", "1 M Imidazole", "250 mM", elution_v_imid p⟩,
   ⟨"DW", "-", "to volume", max 0 (p.elution_vol_ml - used_elution p)⟩]

/-- `design_buffers` of `app.py` lines 61–139: the three component lists,
each passed through `make_buffer_table` (`app.py` line 139).  All stock
concentrations in its body are nonzero literals, so no call of
`ml_from_stock` can raise and the pure `ml_from_stock_val` values are used
throughout. -/
def design_buffers (p : DesignParams) :
    List BufferRow × List BufferRow × List BufferRow :=
  (make_buffer_table (lysis_components p),
   make_buffer_table (wash_components p),
   make_buffer_table (elution_components p))

/-- The sum of the volumes of a buffer table's rows. -/
def sumVols (rows : List BufferRow) : ℚ :=
  (rows.map (fun r => r.volume)).sum

/-- The volume of a buffer table's last row (its "to volume" top-up). -/
def topupVol (rows : List BufferRow) : ℚ :=
  ((rows.getLast?).map (fun r => r.volume)).getD 0

/-! ### Molecular-weight theorems -/

/-- C9: `molecular_weight` of the empty sequence is `0.0`, with no water
term, and no error. -/
theorem calc_mw_da_empty : calc_mw_da [] = Except.ok 0 := rfl

/-- C1 (amended): for every nonempty sequence composed only of the 20 valid
residue codes, `calc_mw_da` returns exactly the sum of the residue-mass
table lookups plus the water constant 18.015, rounded to 2 decimal
places. -/
theorem calc_mw_da_valid_sum (seq : List Char) (hne : seq ≠ [])
    (hvalid : ∀ c ∈ seq, (AA_RESIDUE_MW.lookup c).isSome) :
    calc_mw_da seq = Except.ok (pyRound (sum_residue_mass seq + WATER) 2) := by
  unfold calc_mw_da
  rw [if_neg (by simpa using hne)]
  have hfind : seq.find? (fun c => (AA_RESIDUE_MW.lookup c).isNone) = none := by
    rw [List.find?_eq_none]
    intro c hc
    simpa [Option.isNone_iff_eq_none, ← Option.ne_none_iff_isSome] using hvalid c hc
  rw [hfind]

/-- Witness for `calc_mw_da_valid_sum` at the concrete sequence MH. -/
theorem calc_mw_da_valid_sum_witness :
    calc_mw_da (['M', 'H']) = Except.ok (pyRound (sum_residue_mass (['M', 'H']) + WATER) 2) :=
  calc_mw_da_valid_sum (['M', 'H']) (by decide) (by decide)

/-- Counterexample to C1 as stated: the empty sequence is (vacuously)
composed only of valid codes, yet `calc_mw_da` returns `0.0` and not
`18.015` rounded to 2 decimals (which is `18.02 ≠ 0`). -/
theorem calc_mw_da_empty_vs_water :
    calc_mw_da [] = Except.ok 0 ∧
      pyRound (sum_residue_mass [] + WATER) 2 = 18.02 ∧ (18.02 : ℚ) ≠ 0 := by
  refine ⟨rfl, ?_, by norm_num⟩
  norm_num [pyRound, sum_residue_mass, WATER, roundHalfEven]

/-- C4: `calc_mw_da` returns an error exactly when the sequence contains a
character outside the residue table, the carried character is such an
offending character of the sequence, and in particular the sequence X
fails citing X. -/
theorem calc_mw_da_error_iff :
    (∀ seq : List Char,
      ((∃ c, calc_mw_da seq = Except.error c) ↔
        ∃ c ∈ seq, AA_RESIDUE_MW.lookup c = none) ∧
      (∀ c, calc_mw_da seq = Except.error c →
        c ∈ seq ∧ AA_RESIDUE_MW.lookup c = none)) ∧
    calc_mw_da (['X']) = Except.error 'X' := by
  refine ⟨fun seq => ?_, by rfl⟩
  unfold calc_mw_da
  by_cases hemp : seq.isEmpty
  · rw [if_pos hemp]
    rw [List.isEmpty_iff] at hemp
    subst hemp
    simp
  · rw [if_neg hemp]
    cases hfind : seq.find? (fun c => (AA_RESIDUE_MW.lookup c).isNone) with
    | none =>
      constructor
      · constructor
        · rintro ⟨c, h⟩
          simp at h
        · rintro ⟨c, hc, hnone⟩
          have := List.find?_eq_none.mp hfind c hc
          simp [hnone] at this
      · intro c h
        simp at h
    | some c =>
      have hmem := List.mem_of_find?_eq_some hfind
      have hprop := List.find?_some hfind
      rw [Option.isNone_iff_eq_none] at hprop
      constructor
      · exact ⟨fun _ => ⟨c, hmem, hprop⟩, fun _ => ⟨c, rfl⟩⟩
      · intro c' h
        rw [Except.error.injEq] at h
        subst h
        exact ⟨hmem, hprop⟩

/-! ### Dilution-law theorems -/

/-- C5: for every final volume, final concentration and nonzero stock
concentration, `ml_from_stock` returns `final_conc * final_vol / stock_conc`
(the dilution law C1 V1 = C2 V2); in particular
`ml_from_stock 30 50 1000 = 1.5`. -/
theorem ml_from_stock_dilution_law :
    (∀ v c s : ℚ, s ≠ 0 → ml_from_stock v c s = some (c * v / s)) ∧
    ml_from_stock 30 50 1000 = some 1.5 := by
  constructor
  · intro v c s hs
    simp [ml_from_stock, ml_from_stock_val, hs]
  · norm_num [ml_from_stock, ml_from_stock_val]

/-- C6 (amended): `ml_from_stock` fails exactly when the stock concentration
is zero; a negative stock concentration is not rejected. -/
theorem ml_from_stock_fails_iff_zero (v c s : ℚ) :
    ml_from_stock v c s = none ↔ s = 0 := by
  unfold ml_from_stock
  split <;> simp_all

/-- Counterexample to C6 as stated: at the negative stock concentration
`-1000` the function does not fail; it returns the value `-1.5`. -/
theorem ml_from_stock_negative_stock_no_error :
    (-1000 : ℚ) < 0 ∧ ml_from_stock 30 50 (-1000) = some (-1.5) := by
  constructor
  · norm_num
  · norm_num [ml_from_stock, ml_from_stock_val]

/-! ### Buffer-table theorems -/

theorem sumVols_append (a b : List BufferRow) :
    sumVols (a ++ b) = sumVols a + sumVols b := by
  simp [sumVols]

/-- The lysis rows other than the top-up (`app.py` lines 92–108). -/
def lysis_core (p : DesignParams) : List BufferRow :=
  [⟨"Tris-HCl (buffer base)", trisStockName p.use_tris_ph, "50 mM", lysis_v_tris p⟩,
   ⟨"NaCl", "5 M NaCl", "300 mM", lysis_v_nacl p⟩,
   ⟨"Triton X-100", "10% Triton X-100", "1% (v/v)", lysis_v_tx p⟩,
   ⟨"Protease inhibitor", "100x PI", "1x", lysis_v_pi p⟩] ++
  (if 0 < p.lysis_imid_mM then
    [⟨"Imidazole (optional)", "1 M Imidazole",
      toString p.lysis_imid_mM ++ " mM", lysis_v_imid p⟩]
   else []) ++
  (if p.add_dtt ∧ 0 < p.dtt_mM then
    [⟨"DTT (optional)", "1 M DTT", toString p.dtt_mM ++ " mM", lysis_v_dtt p⟩]
   else []) ++
  (if p.add_bme ∧ 0 < p.bme_mM then
    [⟨"beta-mercaptoethanol (optional)", "14.3 M beta-ME",
      toString p.bme_mM ++ " mM", lysis_v_bme p⟩]
   else [])

theorem lysis_components_eq (p : DesignParams) :
    lysis_components p =
      lysis_core p ++
        [⟨"DW", "-", "to volume", max 0 (p.lysis_vol_ml - used_lysis p)⟩] := by
  simp [lysis_components, lysis_core, List.append_assoc]

theorem sumVols_lysis_core (p : DesignParams) :
    sumVols (lysis_core p) = used_lysis p := by
  unfold lysis_core used_lysis lysis_v_imid lysis_v_dtt lysis_v_bme
  split_ifs <;> simp [sumVols] <;> ring

/-- The wash rows other than the top-up (`app.py` lines 119–121). -/
def wash_core (p : DesignParams) : List BufferRow :=
  [⟨"Tris-HCl (buffer base)", trisStockName p.use_tris_ph, "50 mM", wash_v_tris p⟩,
   ⟨"NaCl", "5 M NaCl", "300 mM", wash_v_nacl p⟩,
   ⟨"Imidazole", "1 M Imidazole", "20 mM", wash_v_imid p⟩]

theorem wash_components_eq (p : DesignParams) :
    wash_components p =
      wash_core p ++
        [⟨"DW", "-", "to volume", max 0 (p.wash_vol_ml - used_wash p)⟩] := rfl

theorem sumVols_wash_core (p : DesignParams) :
    sumVols (wash_core p) = used_wash p := by
  simp [sumVols, wash_core, used_wash]
  ring

/-- The elution rows other than the top-up (`app.py` lines 132–134). -/
def elution_core (p : DesignParams) : List BufferRow :=
  [⟨"Tris-HCl (buffer base)", trisStockName p.use_tris_ph, "50 mM", elution_v_tris p⟩,
   ⟨"NaCl", "5 M NaCl", "300 mM", elution_v_nacl p⟩,
   ⟨"Imidazole", "1 M Imidazole", "250 mM", elution_v_imid p⟩]

theorem elution_components_eq (p : DesignParams) :
    elution_components p =
      elution_core p ++
        [⟨"DW", "-", "to volume", max 0 (p.elution_vol_ml - used_elution p)⟩] := rfl

theorem sumVols_elution_core (p : DesignParams) :
    sumVols (elution_core p) = used_elution p := by
  simp [sumVols, elution_core, used_elution]
  ring

/-- A table of the form core followed by a top-up of
`max 0 (v - sumVols core)` satisfies the top-up invariants. -/
theorem table_topup_spec (core : List BufferRow) (row : BufferRow) (v : ℚ)
    (hrow : row.volume = max 0 (v - sumVols core)) :
    topupVol (core ++ [row]) = max 0 (v - sumVols (core ++ [row]).dropLast) ∧
    (sumVols (core ++ [row]).dropLast ≤ v → sumVols (core ++ [row]) = v) ∧
    (v < sumVols (core ++ [row]).dropLast → topupVol (core ++ [row]) = 0) := by
  have hd : (core ++ [row]).dropLast = core := by
    simp
  have ht : topupVol (core ++ [row]) = row.volume := by
    have := List.getLast?_concat (l := core) (a := row)
    simp only [List.concat_eq_append] at this
    simp [topupVol, this]
  rw [hd, ht, hrow]
  refine ⟨rfl, ?_, ?_⟩
  · intro h
    rw [sumVols_append]
    have hmax : max 0 (v - sumVols core) = v - sumVols core :=
      max_eq_right (by linarith)
    have hone : sumVols [row] = v - sumVols core := by
      rw [show sumVols [row] = row.volume by simp [sumVols], hrow, hmax]
    rw [hone]
    ring
  · intro h
    exact max_eq_left (by linarith)

/-- C2: in each of the three buffer tables, the top-up row's volume is
`max 0 (final volume - sum of the other component volumes)`; hence the
total including top-up equals the requested final volume when the other
components do not exceed it, and the top-up is exactly `0` when they do. -/
theorem design_buffers_topup (p : DesignParams) :
    (topupVol (lysis_components p) =
        max 0 (p.lysis_vol_ml - sumVols (lysis_components p).dropLast) ∧
      (sumVols (lysis_components p).dropLast ≤ p.lysis_vol_ml →
        sumVols (lysis_components p) = p.lysis_vol_ml) ∧
      (p.lysis_vol_ml < sumVols (lysis_components p).dropLast →
        topupVol (lysis_components p) = 0)) ∧
    (topupVol (wash_components p) =
        max 0 (p.wash_vol_ml - sumVols (wash_components p).dropLast) ∧
      (sumVols (wash_components p).dropLast ≤ p.wash_vol_ml →
        sumVols (wash_components p) = p.wash_vol_ml) ∧
      (p.wash_vol_ml < sumVols (wash_components p).dropLast →
        topupVol (wash_components p) = 0)) ∧
    (topupVol (elution_components p) =
        max 0 (p.elution_vol_ml - sumVols (elution_components p).dropLast) ∧
      (sumVols (elution_components p).dropLast ≤ p.elution_vol_ml →
        sumVols (elution_components p) = p.elution_vol_ml) ∧
      (p.elution_vol_ml < sumVols (elution_components p).dropLast →
        topupVol (elution_components p) = 0)) := by
  refine ⟨?_, ?_, ?_⟩
  · rw [lysis_components_eq]
    exact table_topup_spec _ _ _ (by rw [sumVols_lysis_core])
  · rw [wash_components_eq]
    exact table_topup_spec _ _ _ (by rw [sumVols_wash_core])
  · rw [elution_components_eq]
    exact table_topup_spec _ _ _ (by rw [sumVols_elution_core])

/-- C7: each optional lysis component is present in the table exactly when
its governing condition holds (imidazole: amount positive; DTT and
beta-mercaptoethanol: flag enabled and amount positive), and when absent
it contributes zero volume to the component sum `used_lysis`. -/
theorem lysis_optional_components (p : DesignParams) :
    ((∃ r ∈ lysis_components p, r.component = ("Imidazole (optional)" : String)) ↔
      0 < p.lysis_imid_mM) ∧
    ((∃ r ∈ lysis_components p, r.component = ("DTT (optional)" : String)) ↔
      (p.add_dtt ∧ 0 < p.dtt_mM)) ∧
    ((∃ r ∈ lysis_components p, r.component = ("beta-mercaptoethanol (optional)" : String)) ↔
      (p.add_bme ∧ 0 < p.bme_mM)) ∧
    (¬ 0 < p.lysis_imid_mM → lysis_v_imid p = 0) ∧
    (¬ (p.add_dtt ∧ 0 < p.dtt_mM) → lysis_v_dtt p = 0) ∧
    (¬ (p.add_bme ∧ 0 < p.bme_mM) → lysis_v_bme p = 0) := by
  unfold lysis_components lysis_v_imid lysis_v_dtt lysis_v_bme
  split_ifs <;> simp_all

theorem roundHalfEven_intCast (k : ℤ) : roundHalfEven (k : ℚ) = k := by
  unfold roundHalfEven
  rw [Int.floor_intCast]
  norm_num

theorem pyRound_idem (q : ℚ) (n : ℕ) : pyRound (pyRound q n) n = pyRound q n := by
  unfold pyRound
  have h10 : ((10 : ℚ) ^ n) ≠ 0 := by positivity
  rw [div_mul_cancel₀ _ h10, roundHalfEven_intCast]

/-- C10: each of the three tables returned by `design_buffers` is the
corresponding component list with every volume rounded to 4 decimal
places (so every returned volume is a fixed point of that rounding),
uniformly for all three tables, while each top-up volume was computed
from the unrounded component volumes. -/
theorem design_buffers_rounding (p : DesignParams) :
    ((design_buffers p).1 = (lysis_components p).map
        (fun r => ⟨r.component, r.stock, r.target, pyRound r.volume 4⟩) ∧
      (design_buffers p).2.1 = (wash_components p).map
        (fun r => ⟨r.component, r.stock, r.target, pyRound r.volume 4⟩) ∧
      (design_buffers p).2.2 = (elution_components p).map
        (fun r => ⟨r.component, r.stock, r.target, pyRound r.volume 4⟩)) ∧
    ((∀ r ∈ (design_buffers p).1, pyRound r.volume 4 = r.volume) ∧
      (∀ r ∈ (design_buffers p).2.1, pyRound r.volume 4 = r.volume) ∧
      (∀ r ∈ (design_buffers p).2.2, pyRound r.volume 4 = r.volume)) ∧
    (topupVol (lysis_components p) = max 0 (p.lysis_vol_ml - used_lysis p) ∧
      topupVol (wash_components p) = max 0 (p.wash_vol_ml - used_wash p) ∧
      topupVol (elution_components p) = max 0 (p.elution_vol_ml - used_elution p)) := by
  refine ⟨⟨rfl, rfl, rfl⟩, ⟨?_, ?_, ?_⟩, ⟨?_, ?_, ?_⟩⟩
  · intro r hr
    simp only [design_buffers, make_buffer_table, List.mem_map] at hr
    obtain ⟨a, _, rfl⟩ := hr
    exact pyRound_idem a.volume 4
  · intro r hr
    simp only [design_buffers, make_buffer_table, List.mem_map] at hr
    obtain ⟨a, _, rfl⟩ := hr
    exact pyRound_idem a.volume 4
  · intro r hr
    simp only [design_buffers, make_buffer_table, List.mem_map] at hr
    obtain ⟨a, _, rfl⟩ := hr
    exact pyRound_idem a.volume 4
  · rw [lysis_components_eq]
    simp [topupVol]
  · rw [wash_components_eq]
    simp [topupVol]
  · rw [elution_components_eq]
    simp [topupVol]

/-! ### Normalization theorems -/

theorem toUpper_of_isAZ (c : Char) (h : isAZ c = true) : c.toUpper = c := by
  simp only [isAZ, Bool.and_eq_true, decide_eq_true_eq] at h
  obtain ⟨h1, h2⟩ := h
  have h2n : c.toNat ≤ 90 := by
    have hv : c.val.toBitVec ≤ ('Z').val.toBitVec := h2
    have := BitVec.le_def.mp hv
    simpa [Char.toNat, UInt32.toNat] using this
  simp only [Char.toUpper]
  rw [if_neg]
  omega

theorem not_space_of_isAZ (c : Char) (h : isAZ c = true) : isPySpace c = false := by
  cases hc : isPySpace c with
  | false => rfl
  | true =>
    exfalso
    simp only [isPySpace, Bool.or_eq_true, decide_eq_true_eq] at hc
    rcases hc with ((((h1 | h1) | h1) | h1) | h1) | h1 <;> subst h1 <;>
      exact absurd h (by decide)

theorem not_break_of_isAZ (c : Char) (h : isAZ c = true) : isLineBreak c = false := by
  cases hc : isLineBreak c with
  | false => rfl
  | true =>
    exfalso
    simp only [isLineBreak, Bool.or_eq_true, decide_eq_true_eq] at hc
    rcases hc with ((((((((h1 | h1) | h1) | h1) | h1) | h1) | h1) | h1) | h1) | h1 <;>
      subst h1 <;> exact absurd h (by decide)

theorem dropWhile_eq_self_of (p : Char → Bool) (l : List Char)
    (h : ∀ c ∈ l, p c = false) : l.dropWhile p = l := by
  cases l with
  | nil => rfl
  | cons a as => simp [List.dropWhile, h a (List.mem_cons_self a as)]

theorem pyStrip_eq_self (l : List Char) (h : ∀ c ∈ l, isPySpace c = false) :
    pyStrip l = l := by
  unfold pyStrip
  rw [dropWhile_eq_self_of _ _ h,
    dropWhile_eq_self_of _ _ (fun c hc => h c (List.mem_reverse.mp hc)),
    List.reverse_reverse]

theorem splitLinesCore_eq_single (l : List Char)
    (h : ∀ c ∈ l, isLineBreak c = false) : splitLinesCore l = [l] := by
  induction l with
  | nil => rfl
  | cons a as ih =>
    have ha : isLineBreak a = false := h a (List.mem_cons_self a as)
    have har : a ≠ '\r' := by
      rintro rfl
      simp [isLineBreak] at ha
    simp only [splitLinesCore, ih (fun c hc => h c (List.mem_cons_of_mem _ hc))]
    rw [if_neg (by simp [har]), if_neg (by simp [ha])]

theorem map_toUpper_eq_self (l : List Char) (h : ∀ c ∈ l, isAZ c = true) :
    l.map Char.toUpper = l := by
  induction l with
  | nil => rfl
  | cons a as ih =>
    rw [List.map_cons, toUpper_of_isAZ a (h a (List.mem_cons_self a as)),
      ih (fun c hc => h c (List.mem_cons_of_mem _ hc))]

/-- A sequence that already consists only of the capital letters A–Z is
left unchanged by `clean_sequence`. -/
theorem clean_sequence_of_isAZ (l : List Char) (h : ∀ c ∈ l, isAZ c = true) :
    clean_sequence l = l := by
  cases l with
  | nil => rfl
  | cons a as =>
    have hstrip : pyStrip (a :: as) = a :: as :=
      pyStrip_eq_self _ (fun c hc => not_space_of_isAZ c (h c hc))
    have hup : (a :: as).map Char.toUpper = a :: as := map_toUpper_eq_self _ h
    have hsplit : splitLinesCore (a :: as) = [a :: as] :=
      splitLinesCore_eq_single _ (fun c hc => not_break_of_isAZ c (h c hc))
    have hgt : startsWithGt (a :: as) = false := by
      have ha := h a (List.mem_cons_self a as)
      have hne : a ≠ '>' := by
        rintro rfl
        exact absurd ha (by decide)
      simp [startsWithGt, hne]
    have hfil : List.filter isAZ (a :: as) = a :: as := List.filter_eq_self.mpr h
    simp only [clean_sequence, pySplitlines, hstrip, hup, hsplit]
    simp [hgt, hfil, List.intercalate]

theorem mem_clean_sequence_isAZ (l : List Char) :
    ∀ c ∈ clean_sequence l, isAZ c = true := by
  intro c hc
  simp only [clean_sequence] at hc
  exact List.of_mem_filter hc

/-- C8: the output of `clean_sequence` contains only the letters A–Z,
`clean_sequence` is idempotent on every input string, and it strips
FASTA header lines, as in the spec example. -/
theorem clean_sequence_spec :
    (∀ x : List Char, clean_sequence (clean_sequence x) = clean_sequence x) ∧
    (∀ x : List Char, ∀ c ∈ clean_sequence x, ('A' ≤ c ∧ c ≤ 'Z')) ∧
    clean_sequence (">hdr\nMHHH".toList) = "MHHH".toList := by
  refine ⟨fun x => clean_sequence_of_isAZ _ (mem_clean_sequence_isAZ x), ?_, by decide⟩
  intro x c hc
  have := mem_clean_sequence_isAZ x c hc
  simpa [isAZ] using this

/-! ### His-run detection theorems -/

/-- `(s, e)` is a maximal run of the letter H in `l`, as a half-open
0-indexed span: nonempty, within bounds, all H inside, and not extensible
to the left or to the right. -/
def isMaxHRun (l : List Char) (s e : ℕ) : Prop :=
  s < e ∧ e ≤ l.length ∧ (∀ i, s ≤ i → i < e → l.getD i ' ' = 'H') ∧
  (s = 0 ∨ l.getD (s - 1) ' ' ≠ 'H') ∧ (e = l.length ∨ l.getD e ' ' ≠ 'H')

theorem countH_le_length (l : List Char) : countH l ≤ l.length := by
  induction l with
  | nil => simp [countH]
  | cons c rest ih =>
    simp only [countH, List.length_cons]
    split <;> omega

theorem countH_run (l : List Char) : ∀ i < countH l, l.getD i ' ' = 'H' := by
  induction l with
  | nil => simp [countH]
  | cons c rest ih =>
    intro i hi
    simp only [countH] at hi
    split at hi
    · cases i with
      | zero => simpa using ‹c = 'H'›
      | succ j =>
        rw [List.getD_cons_succ]
        exact ih j (by omega)
    · omega

theorem countH_boundary (l : List Char) :
    countH l = l.length ∨ l.getD (countH l) ' ' ≠ 'H' := by
  induction l with
  | nil => left; rfl
  | cons c rest ih =>
    by_cases hc : c = 'H'
    · have hcount : countH (c :: rest) = countH rest + 1 := by
        simp [countH, hc]
      rcases ih with h | h
      · left
        simp [hcount, h]
      · right
        rw [hcount, List.getD_cons_succ]
        exact h
    · right
      have hcount : countH (c :: rest) = 0 := by
        simp [countH, hc]
      rw [hcount, List.getD_cons_zero]
      exact hc

theorem getD_drop_eq (l : List Char) :
    ∀ (k i : ℕ) (d : Char), (l.drop k).getD i d = l.getD (k + i) d := by
  induction l with
  | nil => intro k i d; simp
  | cons c rest ih =>
    intro k i d
    cases k with
    | zero => simp
    | succ k =>
      rw [List.drop_succ_cons, ih k i d, Nat.succ_add, List.getD_cons_succ]

theorem isMaxHRun_cons_of_ne (c : Char) (rest : List Char) (hc : c ≠ 'H') (s e : ℕ) :
    isMaxHRun (c :: rest) s e ↔ 1 ≤ s ∧ isMaxHRun rest (s - 1) (e - 1) := by
  constructor
  · rintro ⟨hse, hel, hH, hleft, hright⟩
    have hs1 : 1 ≤ s := by
      rcases Nat.eq_zero_or_pos s with rfl | h
      · exact absurd (by simpa using hH 0 (le_refl 0) hse) hc
      · omega
    obtain ⟨s', rfl⟩ : ∃ s', s = s' + 1 := ⟨s - 1, by omega⟩
    obtain ⟨e', rfl⟩ : ∃ e', e = e' + 1 := ⟨e - 1, by omega⟩
    simp only [Nat.add_sub_cancel]
    refine ⟨by omega, by omega, by simpa using hel, ?_, ?_, ?_⟩
    · intro i h1 h2
      have := hH (i + 1) (by omega) (by omega)
      rwa [List.getD_cons_succ] at this
    · rcases Nat.eq_zero_or_pos s' with rfl | hs'
      · exact Or.inl rfl
      · right
        rcases hleft with h | h
        · omega
        · obtain ⟨j, rfl⟩ : ∃ j, s' = j + 1 := ⟨s' - 1, by omega⟩
          simpa [List.getD_cons_succ] using h
    · rcases hright with h | h
      · left
        simpa using h
      · right
        rwa [List.getD_cons_succ] at h
  · rintro ⟨hs1, hrun⟩
    obtain ⟨s', rfl⟩ : ∃ s', s = s' + 1 := ⟨s - 1, by omega⟩
    simp only [Nat.add_sub_cancel] at hrun
    obtain ⟨hse', hel', hH', hleft', hright'⟩ := hrun
    obtain ⟨e', rfl⟩ : ∃ e', e = e' + 1 := ⟨e - 1, by omega⟩
    simp only [Nat.add_sub_cancel] at hse' hel' hH' hleft' hright'
    refine ⟨by omega, by simpa using hel', ?_, ?_, ?_⟩
    · intro i h1 h2
      obtain ⟨j, rfl⟩ : ∃ j, i = j + 1 := ⟨i - 1, by omega⟩
      rw [List.getD_cons_succ]
      exact hH' j (by omega) (by omega)
    · right
      rcases Nat.eq_zero_or_pos s' with rfl | hs'
      · simpa using hc
      · rcases hleft' with h | h
        · omega
        · obtain ⟨j, rfl⟩ : ∃ j, s' = j + 1 := ⟨s' - 1, by omega⟩
          simpa [List.getD_cons_succ] using h
    · rcases hright' with h | h
      · left
        simp [h]
      · right
        rwa [List.getD_cons_succ]

theorem isMaxHRun_head_run (l : List Char) (n : ℕ) (hn : 1 ≤ n) (hle : n ≤ l.length)
    (hrun : ∀ i < n, l.getD i ' ' = 'H')
    (hbnd : n = l.length ∨ l.getD n ' ' ≠ 'H') (s e : ℕ) :
    isMaxHRun l s e ↔
      (s = 0 ∧ e = n) ∨ (n < s ∧ isMaxHRun (l.drop n) (s - n) (e - n)) := by
  constructor
  · rintro ⟨hse, hel, hH, hleft, hright⟩
    rcases Nat.eq_zero_or_pos s with rfl | hs
    · left
      refine ⟨rfl, ?_⟩
      have hen : e ≤ n := by
        by_contra hlt
        push_neg at hlt
        have hHn := hH n (by omega) (by omega)
        rcases hbnd with h | h
        · omega
        · exact h hHn
      have hne : n ≤ e := by
        by_contra hlt
        push_neg at hlt
        rcases hright with h | h
        · omega
        · exact h (hrun e (by omega))
      omega
    · right
      have hns : n < s := by
        rcases hleft with h | h
        · omega
        · by_contra hns
          push_neg at hns
          exact h (hrun (s - 1) (by omega))
      refine ⟨hns, by omega, by simp [List.length_drop]; omega, ?_, ?_, ?_⟩
      · intro i h1 h2
        rw [getD_drop_eq]
        exact hH (n + i) (by omega) (by omega)
      · right
        rw [getD_drop_eq]
        have : n + (s - n - 1) = s - 1 := by omega
        rw [this]
        rcases hleft with h | h
        · omega
        · exact h
      · rcases hright with h | h
        · left
          simp [List.length_drop]
          omega
        · right
          rw [getD_drop_eq]
          have : n + (e - n) = e := by omega
          rw [this]
          exact h
  · rintro (⟨rfl, rfl⟩ | ⟨hns, hse', hel', hH', hleft', hright'⟩)
    · exact ⟨hn, hle, fun i h1 h2 => hrun i h2, Or.inl rfl, hbnd⟩
    · rw [List.length_drop] at hel'
      refine ⟨by omega, by omega, ?_, ?_, ?_⟩
      · intro i h1 h2
        have := hH' (i - n) (by omega) (by omega)
        rw [getD_drop_eq] at this
        have heq : n + (i - n) = i := by omega
        rwa [heq] at this
      · right
        rcases hleft' with h | h
        · omega
        · rw [getD_drop_eq] at h
          have heq : n + (s - n - 1) = s - 1 := by omega
          rwa [heq] at h
      · rcases hright' with h | h
        · left
          rw [List.length_drop] at h
          omega
        · right
          rw [getD_drop_eq] at h
          have heq : n + (e - n) = e := by omega
          rwa [heq] at h

theorem find_his_tag_mem_aux :
    ∀ n (l : List Char), l.length ≤ n → ∀ s e,
      ((s, e) ∈ find_his_tag l ↔ isMaxHRun l s e ∧ 6 ≤ e - s) := by
  intro n
  induction n with
  | zero =>
    intro l hl s e
    have : l = [] := List.length_eq_zero.mp (Nat.le_zero.mp hl)
    subst this
    refine iff_of_false (by simp [find_his_tag]) ?_
    rintro ⟨⟨h1, h2, h3, h4, h5⟩, h6⟩
    simp only [List.length_nil] at h2
    omega
  | succ n ih =>
    intro l hl s e
    match l with
    | [] =>
      refine iff_of_false (by simp [find_his_tag]) ?_
      rintro ⟨⟨h1, h2, h3, h4, h5⟩, h6⟩
      simp only [List.length_nil] at h2
      omega
    | c :: rest =>
      rw [List.length_cons] at hl
      by_cases hc : c = 'H'
      · subst hc
        have hcount : countH ('H' :: rest) = countH rest + 1 := by
          simp [countH]
        have hklen : countH rest ≤ rest.length := countH_le_length rest
        have hbridge := isMaxHRun_head_run ('H' :: rest) (countH rest + 1)
          (by omega) (by simp; omega)
          (by rw [← hcount]; exact countH_run _)
          (by rw [← hcount]; exact countH_boundary _) s e
        have hdrop : ('H' :: rest).drop (countH rest + 1) = rest.drop (countH rest) :=
          List.drop_succ_cons ..
        rw [hdrop] at hbridge
        have hmem := fun a b => ih (rest.drop (countH rest))
          (by rw [List.length_drop]; omega) a b
        simp only [find_his_tag, ite_true, decide_True, List.mem_append, List.mem_map]
        rw [hbridge]
        constructor
        · rintro (h | ⟨⟨a, b⟩, hab, heq⟩)
          · split at h
            · simp only [List.mem_singleton, Prod.mk.injEq] at h
              obtain ⟨rfl, rfl⟩ := h
              refine ⟨Or.inl ⟨rfl, rfl⟩, by omega⟩
            · simp at h
          · obtain ⟨hs, he⟩ : a + (countH rest + 1) = s ∧ b + (countH rest + 1) = e := by
              simpa [Prod.ext_iff] using heq
            obtain ⟨hrun', h6⟩ := (hmem a b).mp hab
            have ha1 : 1 ≤ a := by
              rcases Nat.eq_zero_or_pos a with rfl | h
              · exfalso
                obtain ⟨hab', hbl', hH', _, _⟩ := hrun'
                have hH0 : (rest.drop (countH rest)).getD 0 ' ' = 'H' :=
                  hH' 0 le_rfl hab'
                rw [getD_drop_eq, Nat.add_zero] at hH0
                rcases countH_boundary rest with hb | hb
                · rw [List.length_drop, hb] at hbl'
                  omega
                · exact hb hH0
              · exact h
            refine ⟨Or.inr ⟨by omega, ?_⟩, by omega⟩
            have ha : s - (countH rest + 1) = a := by omega
            have hb : e - (countH rest + 1) = b := by omega
            rwa [ha, hb]
        · rintro ⟨h | ⟨hns, hrun'⟩, h6⟩
          · obtain ⟨rfl, rfl⟩ := h
            left
            rw [if_pos (by omega)]
            simp
          · right
            refine ⟨(s - (countH rest + 1), e - (countH rest + 1)),
              (hmem _ _).mpr ⟨hrun', by omega⟩, ?_⟩
            simp only [Prod.mk.injEq]
            obtain ⟨hse', _, _, _, _⟩ := hrun'
            constructor <;> omega
      · have hbridge := isMaxHRun_cons_of_ne c rest hc s e
        simp only [find_his_tag, if_neg hc, List.mem_map]
        rw [hbridge]
        constructor
        · rintro ⟨⟨a, b⟩, hab, heq⟩
          obtain ⟨hs, he⟩ : a + 1 = s ∧ b + 1 = e := by
            simpa [Prod.ext_iff] using heq
          obtain ⟨hrun', h6⟩ := (ih rest (by omega) a b).mp hab
          refine ⟨⟨by omega, ?_⟩, by omega⟩
          have ha : s - 1 = a := by omega
          have hb : e - 1 = b := by omega
          rwa [ha, hb]
        · rintro ⟨⟨hs1, hrun'⟩, h6⟩
          refine ⟨(s - 1, e - 1), (ih rest (by omega) _ _).mpr ⟨hrun', by omega⟩, ?_⟩
          simp only [Prod.mk.injEq]
          obtain ⟨hse', _, _, _, _⟩ := hrun'
          constructor <;> omega

theorem find_his_tag_sorted_aux :
    ∀ n (l : List Char), l.length ≤ n →
      (find_his_tag l).Pairwise (fun a b => a.1 < b.1) := by
  intro n
  induction n with
  | zero =>
    intro l hl
    have : l = [] := List.length_eq_zero.mp (Nat.le_zero.mp hl)
    subst this
    simp [find_his_tag]
  | succ n ih =>
    intro l hl
    match l with
    | [] => simp [find_his_tag]
    | c :: rest =>
      rw [List.length_cons] at hl
      by_cases hc : c = 'H'
      · subst hc
        simp only [find_his_tag, ite_true, decide_True]
        rw [List.pairwise_append]
        refine ⟨?_, ?_, ?_⟩
        · split <;> simp
        · rw [List.pairwise_map]
          exact (ih (rest.drop (countH rest))
            (by rw [List.length_drop]; omega)).imp (fun h => by omega)
        · intro x hx y hy
          split at hx
          · simp only [List.mem_singleton] at hx
            subst hx
            simp only [List.mem_map] at hy
            obtain ⟨⟨a, b⟩, _, rfl⟩ := hy
            simp
          · simp at hx
      · simp only [find_his_tag, if_neg hc]
        rw [List.pairwise_map]
        exact (ih rest (by omega)).imp (fun h => by omega)

/-- C3: `find_his_tag` returns exactly the maximal runs of H of length at
least 6, as half-open 0-indexed spans; the spans are listed in strictly
increasing order of start offset, one span per maximal run; the spec's
three examples evaluate as stated. -/
theorem find_his_tag_spec :
    (∀ l : List Char, ∀ s e,
      ((s, e) ∈ find_his_tag l ↔ isMaxHRun l s e ∧ 6 ≤ e - s)) ∧
    (∀ l : List Char, (find_his_tag l).Pairwise (fun a b => a.1 < b.1)) ∧
    find_his_tag ("MHHHHHHSS".toList) = [(1, 7)] ∧
    find_his_tag ("HHHHH".toList) = [] ∧
    find_his_tag ("HHHHHHHH".toList) = [(0, 8)] := by
  refine ⟨fun l => find_his_tag_mem_aux l.length l le_rfl,
    fun l => find_his_tag_sorted_aux l.length l le_rfl, ?_, ?_, ?_⟩
  · simp [find_his_tag, countH, String.toList]
  · simp [find_his_tag, countH, String.toList]
  · simp [find_his_tag, countH, String.toList]
